import Mathlib

/-!
Verification of the four-function calculator core (operation.rs, state.rs,
calculator.rs).  The Rust `f64` is modelled by `F64`: finite values are exact
rationals, plus `inf`, `neginf` and `nan`.  Arithmetic follows the IEEE-754
category rules; in place of round-to-nearest the model keeps finite results
exact and overflows to infinity at the double-range threshold
`2^1024 - 2^970` (the smallest magnitude that rounds to infinity).  Signed
zero and subnormal rounding are not distinguished.  Number-to-text conversion
(`F64.toDisplay`) and text-to-number conversion (`parseF64`) model Rust's
`to_string` / `str::parse::<f64>`: exact decimal text in both directions,
with parsing overflowing to infinity beyond the double range exactly as
Rust's parser does; for finite values whose exact decimal expansion does not
terminate (where Rust would print a rounded shortest round-tripping decimal)
the model prints an exact fraction form that its parser maps back to the same
value, preserving the round-trip contract.
-/

set_option maxRecDepth 16000

namespace RustCalc

/-- Exact rational addition, written through `mkRat` so that it evaluates
by kernel reduction (`Rat.add` is irreducible); `qadd_eq` below identifies
it with `+`. -/
def qadd (a b : ℚ) : ℚ := mkRat (a.num * b.den + b.num * a.den) (a.den * b.den)

/-- Exact rational multiplication through `mkRat`; equals `*` (`qmul_eq`). -/
def qmul (a b : ℚ) : ℚ := mkRat (a.num * b.num) (a.den * b.den)

/-- Exact rational negation through `mkRat`; equals `-·` (`qneg_eq`). -/
def qneg (a : ℚ) : ℚ := mkRat (-a.num) a.den

/-- Exact rational division through `mkRat`; equals `/` on nonzero
divisors (`qdiv_eq`). -/
def qdiv (a b : ℚ) : ℚ :=
  if b.num < 0 then mkRat (-(a.num * b.den)) (a.den * b.num.natAbs)
  else mkRat (a.num * b.den) (a.den * b.num.natAbs)

/-- Model of Rust `f64`: exact finite rationals plus the special values. -/
inductive F64 where
  | finite (q : ℚ)
  | inf
  | neginf
  | nan
deriving DecidableEq

/-- Smallest magnitude that rounds to infinity in IEEE-754 binary64:
`2^1024 - 2^970`.  Finite doubles have magnitude strictly below this. -/
def ovThreshold : ℚ := mkRat (Int.ofNat (2 ^ 1024 - 2 ^ 970)) 1

/-- Round an exact rational result into the model: magnitudes at or beyond
the double range become infinities, everything else stays exact. -/
def clampF (q : ℚ) : F64 :=
  if ovThreshold ≤ q then .inf
  else if q ≤ qneg ovThreshold then .neginf
  else .finite q

def F64.neg : F64 → F64
  | .finite q => .finite (qneg q)
  | .inf => .neginf
  | .neginf => .inf
  | .nan => .nan

/-- Model of `f64` addition (IEEE-754 category rules, exact finite part). -/
def F64.add : F64 → F64 → F64
  | .nan, _ => .nan
  | _, .nan => .nan
  | .finite a, .finite b => clampF (qadd a b)
  | .inf, .neginf => .nan
  | .neginf, .inf => .nan
  | .inf, _ => .inf
  | .neginf, _ => .neginf
  | .finite _, .inf => .inf
  | .finite _, .neginf => .neginf

/-- Model of `f64` subtraction. -/
def F64.sub (a b : F64) : F64 := a.add b.neg

/-- Model of `f64` multiplication. -/
def F64.mul : F64 → F64 → F64
  | .nan, _ => .nan
  | _, .nan => .nan
  | .finite a, .finite b => clampF (qmul a b)
  | .inf, .finite b => if b = 0 then .nan else if 0 < b then .inf else .neginf
  | .neginf, .finite b => if b = 0 then .nan else if 0 < b then .neginf else .inf
  | .finite a, .inf => if a = 0 then .nan else if 0 < a then .inf else .neginf
  | .finite a, .neginf => if a = 0 then .nan else if 0 < a then .neginf else .inf
  | .inf, .inf => .inf
  | .inf, .neginf => .neginf
  | .neginf, .inf => .neginf
  | .neginf, .neginf => .inf

/-- Model of `f64` division (the calculator only divides by nonzero values,
the zero-divisor rows follow the IEEE rules anyway). -/
def F64.div : F64 → F64 → F64
  | .nan, _ => .nan
  | _, .nan => .nan
  | .finite a, .finite b =>
      if b = 0 then (if a = 0 then .nan else if 0 < a then .inf else .neginf)
      else clampF (qdiv a b)
  | .finite _, .inf => .finite 0
  | .finite _, .neginf => .finite 0
  | .inf, .finite b => if 0 ≤ b then .inf else .neginf
  | .neginf, .finite b => if 0 ≤ b then .neginf else .inf
  | .inf, .inf => .nan
  | .inf, .neginf => .nan
  | .neginf, .inf => .nan
  | .neginf, .neginf => .nan

/-- Model of `f64::is_infinite`. -/
def F64.is_infinite : F64 → Bool
  | .inf => true
  | .neginf => true
  | _ => false

/-- Model of `f64::is_nan`. -/
def F64.is_nan : F64 → Bool
  | .nan => true
  | _ => false

/-! ### Decimal text helpers -/

def isDigitChar (c : Char) : Bool :=
  decide (48 ≤ c.toNat) && decide (c.toNat ≤ 57)

def digitVal (c : Char) : Nat := c.toNat - 48

def digitChar (d : Nat) : Char := Char.ofNat (48 + d)

/-- Value of a big-endian digit string. -/
def natOfDigits (cs : List Char) : Nat :=
  cs.foldl (fun a c => 10 * a + digitVal c) 0

/-- Little-endian digits of `n` (fuel-driven so it reduces in the kernel). -/
def natDigitsAux : Nat → Nat → List Char
  | 0, _ => []
  | fuel + 1, n => if n = 0 then [] else digitChar (n % 10) :: natDigitsAux fuel (n / 10)

/-- Big-endian decimal digits of `n` (Rust integer `to_string`). -/
def natDigits (n : Nat) : List Char :=
  if n = 0 then ['0'] else (natDigitsAux n n).reverse

/-- Model of Rust's `u8::to_string` for a digit. -/
def digitToString (d : Nat) : String := String.mk (natDigits d)

def intDigits (i : Int) : List Char :=
  if i < 0 then '-' :: natDigits i.natAbs else natDigits i.natAbs

/-- `factorCount p n` = multiplicity of `p` in `n` (fuel-driven). -/
def factorCountAux : Nat → Nat → Nat → Nat
  | 0, _, _ => 0
  | fuel + 1, p, n =>
      if 2 ≤ p ∧ n ≠ 0 ∧ n % p = 0 then factorCountAux fuel p (n / p) + 1 else 0

def factorCount (p n : Nat) : Nat := factorCountAux n p n

def padZeros (l : List Char) (n : Nat) : List Char :=
  List.replicate (n - l.length) '0' ++ l

/-- Digit/dot core of the exact decimal rendering of `q` (meaningful when
the denominator is `2^a * 5^b`): the digits of `|num| * 2^(k-a) * 5^(k-b)`
with a dot `k = max a b` places from the right. -/
def decCore (q : ℚ) : List Char :=
  let a := factorCount 2 q.den
  let b := factorCount 5 q.den
  let k := max a b
  let m := q.num.natAbs * 2 ^ (k - a) * 5 ^ (k - b)
  let ds := padZeros (natDigits m) (k + 1)
  if k = 0 then ds else ds.take (ds.length - k) ++ '.' :: ds.drop (ds.length - k)

/-- Exact terminating decimal text of `q`, when the denominator is
`2^a * 5^b` (this covers every value Rust would print exactly). -/
def ratDecimal (q : ℚ) : Option String :=
  if q.den = 2 ^ factorCount 2 q.den * 5 ^ factorCount 5 q.den then
    some (String.mk (if q.num < 0 then '-' :: decCore q else decCore q))
  else none

/-- Model of Rust's `f64` `Display` (`result.to_string()`): plain decimal,
never scientific notation, `"inf"`, `"-inf"`, `"NaN"` for specials.  For a
finite value with a non-terminating decimal expansion the model prints an
exact `f<num>d<den>` fraction form (Rust would print a rounded decimal that
round-trips; the model form round-trips exactly the same way). -/
def F64.toDisplay : F64 → String
  | .finite q =>
      match ratDecimal q with
      | some str => str
      | none => String.mk ('f' :: intDigits q.num ++ 'd' :: natDigits q.den)
  | .inf => "inf"
  | .neginf => "-inf"
  | .nan => "NaN"

/-- Core of decimal parsing: digits with at most one dot, at least one
digit overall (Rust accepts `"5."` and `".5"`, rejects `"."` and `""`). -/
def parseDecCore (cs : List Char) : Option ℚ :=
  let intp := cs.takeWhile (fun c => c ≠ '.')
  let rest := cs.dropWhile (fun c => c ≠ '.')
  let frac := rest.drop 1
  if frac.contains '.' then none
  else if intp.all isDigitChar && frac.all isDigitChar then
    if intp.length + frac.length = 0 then none
    else some (mkRat (Int.ofNat (natOfDigits (intp ++ frac))) (10 ^ frac.length))
  else none

/-- Parser for the exact fraction form produced by `F64.toDisplay`. -/
def parseFracForm (cs : List Char) : Option F64 :=
  let np := cs.takeWhile (fun c => c ≠ 'd')
  let rest := cs.dropWhile (fun c => c ≠ 'd')
  let dp := rest.drop 1
  let nds := if np.head? = some '-' then np.drop 1 else np
  if nds ≠ [] ∧ dp ≠ [] ∧ nds.all isDigitChar ∧ dp.all isDigitChar ∧ natOfDigits dp ≠ 0 then
    let q : ℚ := mkRat (Int.ofNat (natOfDigits nds)) (natOfDigits dp)
    some (clampF (if np.head? = some '-' then qneg q else q))
  else none

/-- Model of Rust `str::parse::<f64>()` on the strings the calculator can
hold: optional sign, decimal digits with at most one dot, the special
spellings, and the model's exact fraction form.  Like Rust's parser it
overflows to infinity beyond the double range (`clampF`). -/
def parseF64 (s : String) : Option F64 :=
  if s = "inf" then some .inf
  else if s = "-inf" then some .neginf
  else if s = "NaN" then some .nan
  else if s.toList.head? = some 'f' then parseFracForm (s.toList.drop 1)
  else
    let cs := if s.toList.head? = some '-' then s.toList.drop 1 else s.toList
    match parseDecCore cs with
    | none => none
    | some q => some (clampF (if s.toList.head? = some '-' then qneg q else q))

/-! ### Operation (operation.rs) -/

/-- The four operations of `operation.rs`. -/
inductive Operation where
  | Add
  | Subtract
  | Multiply
  | Divide
deriving DecidableEq

/-- `Operation::apply` from operation.rs: pure; Add/Subtract/Multiply always
succeed; Divide errors exactly when the right operand compares equal to zero
(`right == 0.0`). -/
def Operation.apply (o : Operation) (left right : F64) : Except String F64 :=
  match o with
  | .Add => .ok (left.add right)
  | .Subtract => .ok (left.sub right)
  | .Multiply => .ok (left.mul right)
  | .Divide =>
      if right = F64.finite 0 then .error "Error: Division by zero"
      else .ok (left.div right)

/-! ### State (state.rs) -/

/-- `CalculatorState` from state.rs. -/
structure CalculatorState where
  display : String
  stored_value : Option F64
  current_operation : Option Operation
  waiting_for_operand : Bool
  error : Option String
  fresh_start : Bool
deriving DecidableEq

/-- `CalculatorState::new` from state.rs. -/
def CalculatorState.new : CalculatorState :=
  { display := "0"
    stored_value := none
    current_operation := none
    waiting_for_operand := false
    error := none
    fresh_start := true }

/-! ### Calculator entry points (calculator.rs) -/

/-- `Calculator::input_digit`. -/
def input_digit (digit : Nat) (s : CalculatorState) : CalculatorState :=
  if s.error.isSome then s
  else if 9 < digit then s
  else if s.waiting_for_operand || s.fresh_start then
    { s with display := digitToString digit
             waiting_for_operand := false
             fresh_start := false }
  else
    { s with display := s.display ++ digitToString digit }

/-- `Calculator::input_decimal_point`. -/
def input_decimal_point (s : CalculatorState) : CalculatorState :=
  if s.error.isSome then s
  else if s.waiting_for_operand || s.fresh_start then
    { s with display := "0."
             waiting_for_operand := false
             fresh_start := false }
  else if s.display.toList.contains '.' then s
  else { s with display := s.display ++ "." }

/-- `Calculator::input_operation`. -/
def input_operation (op : Operation) (s : CalculatorState) : CalculatorState :=
  if s.error.isSome then s
  else if s.display = "" ∨ s.display = "." then s
  else
    match parseF64 s.display with
    | none => s
    | some current =>
      match s.stored_value, s.current_operation with
      | some stored, some prev_op =>
        if s.waiting_for_operand = false then
          match prev_op.apply stored current with
          | .ok result =>
              { s with display := result.toDisplay
                       stored_value := some result
                       current_operation := some op
                       waiting_for_operand := true }
          | .error err => { s with error := some err }
        else
          { s with current_operation := some op, waiting_for_operand := true }
      | _, _ =>
          { s with stored_value := some current
                   current_operation := some op
                   waiting_for_operand := true }

/-- `Calculator::calculate` (the `equals` entry point). -/
def calculate (s : CalculatorState) : CalculatorState :=
  if s.error.isSome then s
  else
    match s.stored_value with
    | none => s
    | some stored =>
      match s.current_operation with
      | none => s
      | some operation =>
        match parseF64 s.display with
        | none => s
        | some current =>
          match operation.apply stored current with
          | .ok result =>
              if result.is_infinite || result.is_nan then
                { s with error := some "Error: Overflow" }
              else
                { s with display := result.toDisplay
                         stored_value := some result
                         current_operation := none
                         waiting_for_operand := true }
          | .error err => { s with error := some err }

/-- `Calculator::clear`. -/
def clear (_ : CalculatorState) : CalculatorState := CalculatorState.new

/-- `Calculator::get_display_text`. -/
def get_display_text (s : CalculatorState) : String :=
  match s.error with
  | some e => e
  | none => s.display

/-! ### Trace semantics -/

/-- One user event: the five entry points of the engine. -/
inductive Event where
  | digit (d : Nat)
  | dot
  | op (o : Operation)
  | eq
  | clearE
deriving DecidableEq

def step (s : CalculatorState) (ev : Event) : CalculatorState :=
  match ev with
  | .digit d => input_digit d s
  | .dot => input_decimal_point s
  | .op o => input_operation o s
  | .eq => calculate s
  | .clearE => clear s

/-- State after a sequence of events on a freshly constructed engine. -/
def run (es : List Event) : CalculatorState :=
  es.foldl step CalculatorState.new

/-- A state the engine can actually be in. -/
def Reachable (s : CalculatorState) : Prop := ∃ es, run es = s

/-! ### Verification-side definitions -/

/-- Shape of a display built purely by digit/dot keystrokes: only digits
and dots, at most one dot, at least one digit. -/
def typedForm (s : String) : Bool :=
  s.toList.all (fun c => isDigitChar c || c == '.') &&
  decide (s.toList.count '.' ≤ 1) &&
  s.toList.any isDigitChar

/-- Well-formed model double: a finite value lies strictly inside the
double range.  Every value produced by `clampF`, `parseF64` or the
arithmetic operations is well formed. -/
def wfF : F64 → Prop
  | .finite q => qneg ovThreshold < q ∧ q < ovThreshold
  | _ => True

/-- Spec-side description of `equals()`, written from the spec's words
("on success … replace display with the result's text form, set
stored_value to the result, clear pending_operator, set
awaiting_new_operand; if infinite or NaN set error to an overflow message
instead; on failure set error to the failure message and leave every other
field unchanged"), for the refinement statement of claim C1. -/
def equalsSpec (a : F64) (op : Operation) (v : F64) (s : CalculatorState) : CalculatorState :=
  match op.apply a v with
  | .ok r =>
      if r.is_infinite || r.is_nan then
        { s with error := some "Error: Overflow" }
      else
        { s with display := r.toDisplay
                 stored_value := some r
                 current_operation := none
                 waiting_for_operand := true }
  | .error e => { s with error := some e }

/-- Invariant carried by every reachable state (established below by
induction over event traces):
1. without an error the display always parses;
2. while accumulating digits (no pending replacement) the display is a
   typed digit/dot string;
3. an error message is always re-derivable from the surviving operands:
   the stored value and pending operation are present, the display parses,
   and applying the operation yields exactly that error (or an
   infinite/NaN result when the message is the overflow message);
4. the display never holds more than one dot. -/
def Inv (s : CalculatorState) : Prop :=
  (s.error = none → ∃ v, parseF64 s.display = some v)
  ∧ (s.error = none → s.waiting_for_operand = false → s.fresh_start = false →
      typedForm s.display = true)
  ∧ (∀ e, s.error = some e →
      ∃ a op v, s.stored_value = some a ∧ s.current_operation = some op ∧
        parseF64 s.display = some v ∧
        (op.apply a v = .error e ∨
         ∃ r, op.apply a v = .ok r ∧ (r.is_infinite || r.is_nan) = true ∧
           e = "Error: Overflow"))
  ∧ s.display.toList.count '.' ≤ 1

/-! ### Rational bridge lemmas: the executable `mkRat` forms equal the
field operations of `ℚ`. -/

theorem den_cast_ne (a : ℚ) : ((a.den : ℚ)) ≠ 0 :=
  Nat.cast_ne_zero.mpr a.den_nz

theorem mul_den_eq (c : ℚ) : c * (c.den : ℚ) = (c.num : ℚ) := by
  have h := Rat.num_div_den c
  calc c * (c.den : ℚ) = ((c.num : ℚ) / (c.den : ℚ)) * (c.den : ℚ) := by rw [h]
  _ = (c.num : ℚ) := div_mul_cancel₀ _ (den_cast_ne c)

theorem qadd_eq (a b : ℚ) : qadd a b = a + b := by
  rw [qadd, Rat.mkRat_eq_div]
  conv_rhs => rw [← Rat.num_div_den a, ← Rat.num_div_den b]
  push_cast
  rw [div_add_div _ _ (den_cast_ne a) (den_cast_ne b)]
  ring_nf

theorem qneg_eq (a : ℚ) : qneg a = -a := by
  rw [qneg, Rat.mkRat_eq_div]
  push_cast
  rw [neg_div, Rat.num_div_den]

theorem qmul_eq (a b : ℚ) : qmul a b = a * b := by
  rw [qmul, Rat.mkRat_eq_div]
  conv_rhs => rw [← Rat.num_div_den a, ← Rat.num_div_den b]
  push_cast
  rw [div_mul_div_comm]

theorem qdiv_eq (a b : ℚ) (hb : b ≠ 0) : qdiv a b = a / b := by
  have hnum : (b.num : ℚ) ≠ 0 := Int.cast_ne_zero.mpr (Rat.num_ne_zero.mpr hb)
  rw [qdiv]
  split
  case isTrue h =>
    have hcast : ((b.num : ℚ)) < 0 := by exact_mod_cast h
    have habs : ((b.num.natAbs : ℚ)) = -(b.num : ℚ) := by
      rw [Int.cast_natAbs, Int.cast_abs, abs_of_neg hcast]
    rw [Rat.mkRat_eq_div]
    push_cast
    rw [habs, div_eq_div_iff (by simp [den_cast_ne a, hnum]) hb]
    rw [← mul_den_eq a, ← mul_den_eq b]
    ring
  case isFalse h =>
    have hcast : (0:ℚ) ≤ ((b.num : ℚ)) := by exact_mod_cast le_of_not_lt h
    have habs : ((b.num.natAbs : ℚ)) = (b.num : ℚ) := by
      rw [Int.cast_natAbs, Int.cast_abs, abs_of_nonneg hcast]
    rw [Rat.mkRat_eq_div]
    push_cast
    rw [habs, div_eq_div_iff (by simp [den_cast_ne a, hnum]) hb]
    rw [← mul_den_eq a, ← mul_den_eq b]
    ring

theorem ovThreshold_pos : (0:ℚ) < ovThreshold := by decide

/-! ### Digit-string lemmas -/

theorem isDigitChar_iff (c : Char) :
    isDigitChar c = true ↔ 48 ≤ c.toNat ∧ c.toNat ≤ 57 := by
  simp [isDigitChar]

theorem digit_ne_dot {c : Char} (h : isDigitChar c = true) : c ≠ '.' := by
  intro hc; subst hc; simp [isDigitChar] at h

theorem digit_ne_dash {c : Char} (h : isDigitChar c = true) : c ≠ '-' := by
  intro hc; subst hc; simp [isDigitChar] at h

theorem digit_ne_f {c : Char} (h : isDigitChar c = true) : c ≠ 'f' := by
  intro hc; subst hc; simp [isDigitChar] at h

theorem digit_ne_d {c : Char} (h : isDigitChar c = true) : c ≠ 'd' := by
  intro hc; subst hc; simp [isDigitChar] at h

theorem digit_ne_i {c : Char} (h : isDigitChar c = true) : c ≠ 'i' := by
  intro hc; subst hc; simp [isDigitChar] at h

theorem digitVal_digitChar {d : Nat} (h : d < 10) :
    digitVal (digitChar d) = d := by
  interval_cases d <;> decide

theorem isDigitChar_digitChar {d : Nat} (h : d < 10) :
    isDigitChar (digitChar d) = true := by
  interval_cases d <;> decide

theorem natOfDigits_acc (cs : List Char) (a : Nat) :
    cs.foldl (fun x c => 10 * x + digitVal c) a = a * 10 ^ cs.length + natOfDigits cs := by
  induction cs generalizing a with
  | nil => simp [natOfDigits]
  | cons c cs ih =>
      simp only [List.foldl_cons, natOfDigits, List.length_cons]
      rw [ih (10 * a + digitVal c), ih (10 * 0 + digitVal c)]
      ring

theorem natOfDigits_append (l1 l2 : List Char) :
    natOfDigits (l1 ++ l2) = natOfDigits l1 * 10 ^ l2.length + natOfDigits l2 := by
  rw [natOfDigits, List.foldl_append]
  exact natOfDigits_acc l2 (natOfDigits l1)

theorem natOfDigits_replicate_zero (k : Nat) :
    natOfDigits (List.replicate k '0') = 0 := by
  induction k with
  | zero => rfl
  | succ k ih =>
      rw [List.replicate_succ, natOfDigits, List.foldl_cons]
      have : (10 * 0 + digitVal '0') = 0 := by decide
      rw [this]
      exact ih

theorem natOfDigits_padZeros (l : List Char) (n : Nat) :
    natOfDigits (padZeros l n) = natOfDigits l := by
  rw [padZeros, natOfDigits_append, natOfDigits_replicate_zero]
  simp

theorem natOfDigits_natDigitsAux (fuel n : Nat) (h : n ≤ fuel) :
    natOfDigits ((natDigitsAux fuel n).reverse) = n := by
  induction fuel generalizing n with
  | zero =>
      interval_cases n
      rfl
  | succ fuel ih =>
      simp only [natDigitsAux]
      by_cases hn : n = 0
      · simp [hn, natOfDigits]
      · rw [if_neg hn, List.reverse_cons, natOfDigits_append]
        have hdiv : n / 10 ≤ fuel := by
          have := Nat.div_le_self n 10
          have := Nat.div_lt_self (Nat.pos_of_ne_zero hn) (by norm_num : 1 < 10)
          omega
        rw [ih (n / 10) hdiv]
        have hv : natOfDigits [digitChar (n % 10)] = n % 10 := by
          have h10 : n % 10 < 10 := Nat.mod_lt _ (by norm_num)
          simp [natOfDigits, digitVal_digitChar h10]
        rw [hv]
        simp only [List.length_cons, List.length_nil]
        omega

theorem natOfDigits_natDigits (n : Nat) : natOfDigits (natDigits n) = n := by
  rw [natDigits]
  by_cases hn : n = 0
  · subst hn; decide
  · rw [if_neg hn]
    exact natOfDigits_natDigitsAux n n le_rfl

theorem natDigitsAux_all_digit (fuel n : Nat) :
    ∀ c ∈ natDigitsAux fuel n, isDigitChar c = true := by
  induction fuel generalizing n with
  | zero => intro c hc; simp [natDigitsAux] at hc
  | succ fuel ih =>
      intro c hc
      simp only [natDigitsAux] at hc
      by_cases hn : n = 0
      · simp [hn] at hc
      · rw [if_neg hn] at hc
        rcases List.mem_cons.mp hc with h | h
        · subst h
          exact isDigitChar_digitChar (Nat.mod_lt _ (by norm_num))
        · exact ih _ c h

theorem natDigits_all_digit (n : Nat) :
    ∀ c ∈ natDigits n, isDigitChar c = true := by
  intro c hc
  rw [natDigits] at hc
  by_cases hn : n = 0
  · simp [hn] at hc
    subst hc; decide
  · rw [if_neg hn] at hc
    exact natDigitsAux_all_digit n n c (List.mem_reverse.mp hc)

theorem natDigits_ne_nil (n : Nat) : natDigits n ≠ [] := by
  rw [natDigits]
  by_cases hn : n = 0
  · simp [hn]
  · rw [if_neg hn]
    rcases Nat.exists_eq_succ_of_ne_zero hn with ⟨m, rfl⟩
    simp only [natDigitsAux, if_neg hn]
    simp

/-! ### takeWhile / dropWhile helpers -/

theorem mem_takeWhile_pred {α : Type} {p : α → Bool} {l : List α} {c : α}
    (h : c ∈ l.takeWhile p) : p c = true := by
  induction l with
  | nil => simp at h
  | cons a l ih =>
      rw [List.takeWhile_cons] at h
      split at h
      · rcases List.mem_cons.mp h with rfl | h2
        · assumption
        · exact ih h2
      · simp at h

theorem takeWhile_append_all {α : Type} {p : α → Bool} {l1 l2 : List α}
    (h : ∀ c ∈ l1, p c = true) :
    (l1 ++ l2).takeWhile p = l1 ++ l2.takeWhile p := by
  induction l1 with
  | nil => simp
  | cons a l ih =>
      simp only [List.cons_append]
      rw [List.takeWhile_cons_of_pos (h a (List.mem_cons_self a l)),
        ih (fun c hc => h c (List.mem_cons_of_mem a hc))]

theorem dropWhile_append_all {α : Type} {p : α → Bool} {l1 l2 : List α}
    (h : ∀ c ∈ l1, p c = true) :
    (l1 ++ l2).dropWhile p = l2.dropWhile p := by
  induction l1 with
  | nil => simp
  | cons a l ih =>
      simp only [List.cons_append]
      rw [List.dropWhile_cons_of_pos (h a (List.mem_cons_self a l)),
        ih (fun c hc => h c (List.mem_cons_of_mem a hc))]

theorem takeWhile_all {α : Type} {p : α → Bool} {l : List α}
    (h : ∀ c ∈ l, p c = true) : l.takeWhile p = l := by
  induction l with
  | nil => rfl
  | cons a t ih =>
      rw [List.takeWhile_cons_of_pos (h a (List.mem_cons_self a t)),
        ih (fun c hc => h c (List.mem_cons_of_mem a hc))]

theorem dropWhile_all {α : Type} {p : α → Bool} {l : List α}
    (h : ∀ c ∈ l, p c = true) : l.dropWhile p = [] := by
  induction l with
  | nil => rfl
  | cons a t ih =>
      rw [List.dropWhile_cons_of_pos (h a (List.mem_cons_self a t)),
        ih (fun c hc => h c (List.mem_cons_of_mem a hc))]

theorem contains_eq_false_of_not_mem {l : List Char} {c : Char} (h : c ∉ l) :
    l.contains c = false := by
  simpa using h

/-! ### `parseDecCore` on digit strings -/

theorem parseDecCore_digits {l : List Char}
    (hall : ∀ c ∈ l, isDigitChar c = true) (hne : l ≠ []) :
    parseDecCore l = some (mkRat (Int.ofNat (natOfDigits l)) 1) := by
  have hnd : ∀ c ∈ l, (fun c => decide (c ≠ '.')) c = true := by
    intro c hc
    simpa using digit_ne_dot (hall c hc)
  rw [parseDecCore]
  simp only [takeWhile_all hnd, dropWhile_all hnd, List.drop_nil]
  rw [if_neg (by simp)]
  rw [if_pos]
  · rw [if_neg]
    · simp [natOfDigits]
    · simpa [List.length_eq_zero] using hne
  · simp only [Bool.and_eq_true, List.all_eq_true]
    exact ⟨fun c hc => hall c hc, by simp⟩

theorem parseDecCore_digits_dot {l1 l2 : List Char}
    (h1 : ∀ c ∈ l1, isDigitChar c = true) (h2 : ∀ c ∈ l2, isDigitChar c = true)
    (hne : l1 ≠ [] ∨ l2 ≠ []) :
    parseDecCore (l1 ++ '.' :: l2) =
      some (mkRat (Int.ofNat (natOfDigits (l1 ++ l2))) (10 ^ l2.length)) := by
  have hnd : ∀ c ∈ l1, (fun c => decide (c ≠ '.')) c = true := by
    intro c hc
    simpa using digit_ne_dot (h1 c hc)
  have ht : List.takeWhile (fun c => decide (c ≠ '.')) ('.' :: l2) = [] :=
    List.takeWhile_cons_of_neg (by simp)
  have hdw : List.dropWhile (fun c => decide (c ≠ '.')) ('.' :: l2) = '.' :: l2 :=
    List.dropWhile_cons_of_neg (by simp)
  rw [parseDecCore]
  simp only [takeWhile_append_all hnd, dropWhile_append_all hnd, ht, hdw,
    List.append_nil, List.drop_succ_cons, List.drop_zero]
  have hnm : ('.' : Char) ∉ l2 := fun hm => digit_ne_dot (h2 _ hm) rfl
  have hlen : ¬ (l1.length + l2.length = 0) := by
    rcases hne with h | h
    · intro hl; exact h (List.length_eq_zero.mp (by omega))
    · intro hl; exact h (List.length_eq_zero.mp (by omega))
  rw [if_neg (by simp [hnm]),
    if_pos (by simp only [Bool.and_eq_true, List.all_eq_true]; exact ⟨h1, h2⟩),
    if_neg hlen]

/-! ### `parseF64` normal forms -/

theorem toList_mk (l : List Char) : (String.mk l).toList = l := rfl

theorem mk_ne_head {l : List Char} {t : String} (h : l.head? ≠ t.toList.head?) :
    String.mk l ≠ t := by
  intro he
  exact h (by rw [← toList_mk l, he])

theorem mk_ne_second {l : List Char} {t : String}
    (h : (l.drop 1).head? ≠ (t.toList.drop 1).head?) :
    String.mk l ≠ t := by
  intro he
  exact h (by rw [← toList_mk l, he])

theorem parseF64_of_plain (s : String)
    (h1 : s ≠ "inf") (h2 : s ≠ "-inf") (h3 : s ≠ "NaN")
    (h4 : s.toList.head? ≠ some 'f') (h5 : s.toList.head? ≠ some '-') :
    parseF64 s = Option.map clampF (parseDecCore s.toList) := by
  rw [parseF64, if_neg h1, if_neg h2, if_neg h3, if_neg h4]
  simp only [if_neg h5]
  cases parseDecCore s.toList <;> simp

theorem parseF64_of_dash (s : String)
    (h1 : s ≠ "inf") (h2 : s ≠ "-inf") (h3 : s ≠ "NaN")
    (h5 : s.toList.head? = some '-') :
    parseF64 s = Option.map (fun q => clampF (qneg q)) (parseDecCore (s.toList.drop 1)) := by
  have h4 : s.toList.head? ≠ some 'f' := by rw [h5]; simp
  rw [parseF64, if_neg h1, if_neg h2, if_neg h3, if_neg h4]
  simp only [if_pos h5]
  cases parseDecCore (s.toList.drop 1) <;> simp

theorem parseF64_of_f (s : String)
    (h1 : s ≠ "inf") (h2 : s ≠ "-inf") (h3 : s ≠ "NaN")
    (h4 : s.toList.head? = some 'f') :
    parseF64 s = parseFracForm (s.toList.drop 1) := by
  rw [parseF64, if_neg h1, if_neg h2, if_neg h3, if_pos h4]

/-- A typed digit/dot display always parses. -/
theorem parseF64_typed {s : String} (h : typedForm s = true) :
    ∃ v, parseF64 s = some v := by
  have hinf : s ≠ "inf" := by rintro rfl; exact absurd h (by decide)
  have hninf : s ≠ "-inf" := by rintro rfl; exact absurd h (by decide)
  have hnan : s ≠ "NaN" := by rintro rfl; exact absurd h (by decide)
  simp only [typedForm, Bool.and_eq_true, List.all_eq_true, List.any_eq_true,
    Bool.or_eq_true, beq_iff_eq, decide_eq_true_eq] at h
  obtain ⟨⟨hall, hcnt⟩, c0, hc0, hc0d⟩ := h
  have hhead : ∀ c, s.toList.head? = some c → isDigitChar c = true ∨ c = '.' := by
    intro c hc
    cases hl : s.toList with
    | nil => rw [hl] at hc; simp at hc
    | cons a t =>
        rw [hl] at hc
        simp only [List.head?_cons, Option.some.injEq] at hc
        subst hc
        exact hall _ (by rw [hl]; exact List.mem_cons_self _ _)
  have h4 : s.toList.head? ≠ some 'f' := by
    intro hc
    rcases hhead _ hc with hd | hd
    · exact digit_ne_f hd rfl
    · exact absurd hd (by decide)
  have h5 : s.toList.head? ≠ some '-' := by
    intro hc
    rcases hhead _ hc with hd | hd
    · exact digit_ne_dash hd rfl
    · exact absurd hd (by decide)
  rw [parseF64_of_plain s hinf hninf hnan h4 h5]
  by_cases hdot : ('.' : Char) ∈ s.toList
  · obtain ⟨l1, l2, hsplit⟩ := List.append_of_mem hdot
    rw [hsplit] at hcnt
    have hcnt2 : l1.count '.' = 0 ∧ l2.count '.' = 0 := by
      rw [List.count_append, List.count_cons_self] at hcnt
      constructor <;> omega
    have hnd1 : ('.' : Char) ∉ l1 := List.count_eq_zero.mp hcnt2.1
    have hnd2 : ('.' : Char) ∉ l2 := List.count_eq_zero.mp hcnt2.2
    have hd1 : ∀ c ∈ l1, isDigitChar c = true := by
      intro c hc
      rcases hall c (by rw [hsplit]; exact List.mem_append_left _ hc) with hd | hd
      · exact hd
      · exact absurd (hd ▸ hc) hnd1
    have hd2 : ∀ c ∈ l2, isDigitChar c = true := by
      intro c hc
      rcases hall c (by rw [hsplit]; exact List.mem_append_right _ (List.mem_cons_of_mem _ hc)) with hd | hd
      · exact hd
      · exact absurd (hd ▸ hc) hnd2
    have hne : l1 ≠ [] ∨ l2 ≠ [] := by
      rw [hsplit] at hc0
      rcases List.mem_append.mp hc0 with hm | hm
      · exact Or.inl (List.ne_nil_of_mem hm)
      · rcases List.mem_cons.mp hm with rfl | hm
        · exact absurd hc0d (by decide)
        · exact Or.inr (List.ne_nil_of_mem hm)
    rw [hsplit, parseDecCore_digits_dot hd1 hd2 hne]
    exact ⟨_, rfl⟩
  · have hd : ∀ c ∈ s.toList, isDigitChar c = true := by
      intro c hc
      rcases hall c hc with h | h
      · exact h
      · exact absurd (h ▸ hc) hdot
    rw [parseDecCore_digits hd (List.ne_nil_of_mem hc0)]
    exact ⟨_, rfl⟩

/-! ### Round trip: `parseF64` inverts `F64.toDisplay` -/

theorem clampF_of_bounds {x : ℚ} (h1 : qneg ovThreshold < x) (h2 : x < ovThreshold) :
    clampF x = .finite x := by
  rw [clampF, if_neg (not_le.mpr h2), if_neg (not_le.mpr h1)]

theorem padZeros_length (l : List Char) (n : Nat) : n ≤ (padZeros l n).length := by
  simp only [padZeros, List.length_append, List.length_replicate]
  omega

theorem padZeros_all_digit {l : List Char} (n : Nat)
    (h : ∀ c ∈ l, isDigitChar c = true) :
    ∀ c ∈ padZeros l n, isDigitChar c = true := by
  intro c hc
  rcases List.mem_append.mp hc with hm | hm
  · rw [List.eq_of_mem_replicate hm]
    decide
  · exact h c hm

theorem parse_core_pos (ds : List Char) (k : Nat)
    (hall : ∀ c ∈ ds, isDigitChar c = true) (hlen : k + 1 ≤ ds.length) :
    parseF64 (String.mk
        (if k = 0 then ds else ds.take (ds.length - k) ++ '.' :: ds.drop (ds.length - k))) =
      some (clampF (mkRat (Int.ofNat (natOfDigits ds)) (10 ^ k))) := by
  have hdsne : ds ≠ [] := by
    intro h
    rw [h] at hlen
    simp at hlen
  by_cases hk : k = 0
  · subst hk
    rw [if_pos rfl]
    obtain ⟨c0, t, rfl⟩ : ∃ c0 t, ds = c0 :: t := by
      cases ds with
      | nil => exact absurd rfl hdsne
      | cons a t => exact ⟨a, t, rfl⟩
    have hc0 : isDigitChar c0 = true := hall c0 (List.mem_cons_self _ _)
    rw [parseF64_of_plain]
    · rw [toList_mk, parseDecCore_digits hall hdsne]
      rfl
    · exact mk_ne_head (by simp; intro h; exact digit_ne_i hc0 h)
    · exact mk_ne_head (by simp; intro h; exact digit_ne_dash hc0 h)
    · exact mk_ne_head (by
        simp
        intro h
        subst h
        exact absurd hc0 (by decide))
    · rw [toList_mk]
      simp
      intro h
      exact digit_ne_f hc0 h
    · rw [toList_mk]
      simp
      intro h
      exact digit_ne_dash hc0 h
  · rw [if_neg hk]
    have hwlen : (ds.take (ds.length - k)).length = ds.length - k := by
      rw [List.length_take]
      omega
    obtain ⟨c0, t, hw⟩ : ∃ c0 t, ds.take (ds.length - k) = c0 :: t := by
      cases hcase : ds.take (ds.length - k) with
      | nil => rw [hcase] at hwlen; simp at hwlen; omega
      | cons a t => exact ⟨a, t, rfl⟩
    have hd1 : ∀ c ∈ ds.take (ds.length - k), isDigitChar c = true :=
      fun c hc => hall c (List.take_subset _ _ hc)
    have hd2 : ∀ c ∈ ds.drop (ds.length - k), isDigitChar c = true :=
      fun c hc => hall c (List.drop_subset _ _ hc)
    have hc0 : isDigitChar c0 = true := hd1 c0 (by rw [hw]; exact List.mem_cons_self _ _)
    have hhead : (ds.take (ds.length - k) ++ '.' :: ds.drop (ds.length - k)).head? = some c0 := by
      rw [hw]
      rfl
    rw [parseF64_of_plain]
    · rw [toList_mk, parseDecCore_digits_dot hd1 hd2 (Or.inl (by rw [hw]; simp)),
        List.take_append_drop]
      have hfl : (ds.drop (ds.length - k)).length = k := by
        rw [List.length_drop]
        omega
      rw [hfl]
      rfl
    · refine mk_ne_head ?_
      rw [hhead]
      simp
      intro h
      exact digit_ne_i hc0 h
    · refine mk_ne_head ?_
      rw [hhead]
      simp
      intro h
      exact digit_ne_dash hc0 h
    · refine mk_ne_head ?_
      rw [hhead]
      simp
      intro h
      subst h
      exact absurd hc0 (by decide)
    · rw [toList_mk, hhead]
      simp
      intro h
      exact digit_ne_f hc0 h
    · rw [toList_mk, hhead]
      simp
      intro h
      exact digit_ne_dash hc0 h

theorem parse_core_neg (ds : List Char) (k : Nat)
    (hall : ∀ c ∈ ds, isDigitChar c = true) (hlen : k + 1 ≤ ds.length) :
    parseF64 (String.mk ('-' ::
        (if k = 0 then ds else ds.take (ds.length - k) ++ '.' :: ds.drop (ds.length - k)))) =
      some (clampF (qneg (mkRat (Int.ofNat (natOfDigits ds)) (10 ^ k)))) := by
  have hdsne : ds ≠ [] := by
    intro h
    rw [h] at hlen
    simp at hlen
  set core := if k = 0 then ds else ds.take (ds.length - k) ++ '.' :: ds.drop (ds.length - k)
    with hcore
  have hchead : ∃ c0, core.head? = some c0 ∧ isDigitChar c0 = true := by
    rw [hcore]
    by_cases hk : k = 0
    · rw [if_pos hk]
      cases ds with
      | nil => exact absurd rfl hdsne
      | cons a t => exact ⟨a, rfl, hall a (List.mem_cons_self _ _)⟩
    · rw [if_neg hk]
      have hwlen : (ds.take (ds.length - k)).length = ds.length - k := by
        rw [List.length_take]
        omega
      cases hcase : ds.take (ds.length - k) with
      | nil => rw [hcase] at hwlen; simp at hwlen; omega
      | cons a t =>
          refine ⟨a, rfl, ?_⟩
          exact hall a (List.take_subset _ _ (by rw [hcase]; exact List.mem_cons_self _ _))
  obtain ⟨c0, hc0h, hc0⟩ := hchead
  have hcne : core ≠ [] := by
    intro h
    rw [h] at hc0h
    simp at hc0h
  have hpdec : parseDecCore core = some (mkRat (Int.ofNat (natOfDigits ds)) (10 ^ k)) := by
    rw [hcore]
    by_cases hk : k = 0
    · subst hk
      rw [if_pos rfl, parseDecCore_digits hall hdsne]
      rfl
    · rw [if_neg hk]
      have hd1 : ∀ c ∈ ds.take (ds.length - k), isDigitChar c = true :=
        fun c hc => hall c (List.take_subset _ _ hc)
      have hd2 : ∀ c ∈ ds.drop (ds.length - k), isDigitChar c = true :=
        fun c hc => hall c (List.drop_subset _ _ hc)
      have hwne : ds.take (ds.length - k) ≠ [] := by
        intro h
        have := congrArg List.length h
        rw [List.length_take] at this
        simp at this
        omega
      rw [parseDecCore_digits_dot hd1 hd2 (Or.inl hwne), List.take_append_drop]
      have hfl : (ds.drop (ds.length - k)).length = k := by
        rw [List.length_drop]
        omega
      rw [hfl]
  rw [parseF64_of_dash]
  · rw [toList_mk, List.drop_succ_cons, List.drop_zero, hpdec]
    rfl
  · refine mk_ne_head ?_
    rw [toList_mk]
    simp
  · refine mk_ne_second ?_
    rw [toList_mk, List.drop_succ_cons, List.drop_zero, hc0h]
    simp
    intro h
    exact digit_ne_i hc0 h
  · refine mk_ne_head ?_
    rw [toList_mk]
    simp
  · rw [toList_mk]
    rfl

/-! ### The printed value parses back -/

theorem mkRat_pow_eq (q : ℚ) (A B : Nat) (hden : q.den = 2 ^ A * 5 ^ B) :
    mkRat (Int.ofNat (q.num.natAbs * 2 ^ (max A B - A) * 5 ^ (max A B - B))) (10 ^ max A B) =
      (q.num.natAbs : ℚ) / (q.den : ℚ) := by
  set k := max A B with hk
  have hnat : (q.num.natAbs * 2 ^ (k - A) * 5 ^ (k - B)) * q.den
      = q.num.natAbs * 10 ^ k := by
    rw [hden]
    have h2 : 2 ^ (k - A) * 2 ^ A = 2 ^ k := by
      rw [← pow_add]
      congr 1
      have := le_max_left A B
      omega
    have h5 : 5 ^ (k - B) * 5 ^ B = 5 ^ k := by
      rw [← pow_add]
      congr 1
      have := le_max_right A B
      omega
    calc (q.num.natAbs * 2 ^ (k - A) * 5 ^ (k - B)) * (2 ^ A * 5 ^ B)
        = q.num.natAbs * (2 ^ (k - A) * 2 ^ A) * (5 ^ (k - B) * 5 ^ B) := by ring
      _ = q.num.natAbs * 2 ^ k * 5 ^ k := by rw [h2, h5]
      _ = q.num.natAbs * 10 ^ k := by
          rw [show (10:Nat) = 2 * 5 from rfl, mul_pow]
          ring
  have hx : (((10 ^ k : Nat)) : ℚ) ≠ 0 :=
    Nat.cast_ne_zero.mpr (pow_ne_zero _ (by norm_num))
  rw [Rat.mkRat_eq_div]
  simp only [Int.ofNat_eq_coe, Int.cast_natCast]
  rw [div_eq_div_iff (by exact_mod_cast hx) (den_cast_ne q)]
  exact_mod_cast hnat

theorem num_cast_div_den (q : ℚ) : ((q.num : ℚ)) / ((q.den : ℚ)) = q :=
  Rat.num_div_den q

theorem parse_decCore_sign (q : ℚ)
    (hden : q.den = 2 ^ factorCount 2 q.den * 5 ^ factorCount 5 q.den)
    (hb1 : qneg ovThreshold < q) (hb2 : q < ovThreshold) :
    parseF64 (String.mk (if q.num < 0 then '-' :: decCore q else decCore q))
      = some (.finite q) := by
  set A := factorCount 2 q.den with hA
  set B := factorCount 5 q.den with hB
  set k := max A B with hk
  set m := q.num.natAbs * 2 ^ (k - A) * 5 ^ (k - B) with hm
  set ds := padZeros (natDigits m) (k + 1) with hds
  have hall : ∀ c ∈ ds, isDigitChar c = true :=
    padZeros_all_digit (k + 1) (natDigits_all_digit m)
  have hlen : k + 1 ≤ ds.length := padZeros_length _ _
  have hcore : decCore q =
      (if k = 0 then ds else ds.take (ds.length - k) ++ '.' :: ds.drop (ds.length - k)) := by
    simp only [decCore]
  have hnods : natOfDigits ds = m := by
    rw [hds, natOfDigits_padZeros, natOfDigits_natDigits]
  have hval : mkRat (Int.ofNat (natOfDigits ds)) (10 ^ k)
      = (q.num.natAbs : ℚ) / (q.den : ℚ) := by
    rw [hnods, hm]
    exact mkRat_pow_eq q A B hden
  by_cases hneg : q.num < 0
  · rw [if_pos hneg, hcore, parse_core_neg ds k hall hlen, hval]
    have habs : ((q.num.natAbs : ℚ)) = -(q.num : ℚ) := by
      have hcast : ((q.num : ℚ)) < 0 := by exact_mod_cast hneg
      rw [Int.cast_natAbs, Int.cast_abs, abs_of_neg hcast]
    rw [habs, neg_div, qneg_eq, neg_neg, num_cast_div_den]
    rw [clampF_of_bounds hb1 hb2]
  · rw [if_neg hneg, hcore, parse_core_pos ds k hall hlen, hval]
    have habs : ((q.num.natAbs : ℚ)) = (q.num : ℚ) := by
      have hcast : (0:ℚ) ≤ ((q.num : ℚ)) := by exact_mod_cast le_of_not_lt hneg
      rw [Int.cast_natAbs, Int.cast_abs, abs_of_nonneg hcast]
    rw [habs, num_cast_div_den]
    rw [clampF_of_bounds hb1 hb2]

theorem parseFracForm_eq (nl dl : List Char)
    (hn : ∀ c ∈ nl, isDigitChar c = true) (hd : ∀ c ∈ dl, isDigitChar c = true)
    (hnne : nl ≠ []) (hdne : dl ≠ []) (hden0 : natOfDigits dl ≠ 0) :
    parseFracForm (nl ++ 'd' :: dl)
      = some (clampF (mkRat (Int.ofNat (natOfDigits nl)) (natOfDigits dl))) := by
  have hnd : ∀ c ∈ nl, (fun c => decide (c ≠ 'd')) c = true := by
    intro c hc
    simpa using digit_ne_d (hn c hc)
  have ht2 : List.takeWhile (fun c => decide (c ≠ 'd')) ('d' :: dl) = [] :=
    List.takeWhile_cons_of_neg (by simp)
  have hdw2 : List.dropWhile (fun c => decide (c ≠ 'd')) ('d' :: dl) = 'd' :: dl :=
    List.dropWhile_cons_of_neg (by simp)
  have hnp : (nl ++ 'd' :: dl).takeWhile (fun c => decide (c ≠ 'd')) = nl := by
    rw [takeWhile_append_all hnd, ht2, List.append_nil]
  have hdp : (nl ++ 'd' :: dl).dropWhile (fun c => decide (c ≠ 'd')) = 'd' :: dl := by
    rw [dropWhile_append_all hnd, hdw2]
  have hnohead : ¬ (nl.head? = some '-') := by
    cases hcase : nl with
    | nil => exact absurd hcase hnne
    | cons a t =>
        simp only [List.head?_cons, Option.some.injEq]
        intro h
        exact digit_ne_dash (hn a (by rw [hcase]; exact List.mem_cons_self _ _)) h
  simp only [parseFracForm, hnp, hdp, List.drop_succ_cons, List.drop_zero, if_neg hnohead]
  rw [if_pos ⟨hnne, hdne, List.all_eq_true.mpr hn, List.all_eq_true.mpr hd, hden0⟩]

theorem parseFracForm_eq_neg (nl dl : List Char)
    (hn : ∀ c ∈ nl, isDigitChar c = true) (hd : ∀ c ∈ dl, isDigitChar c = true)
    (hnne : nl ≠ []) (hdne : dl ≠ []) (hden0 : natOfDigits dl ≠ 0) :
    parseFracForm (('-' :: nl) ++ 'd' :: dl)
      = some (clampF (qneg (mkRat (Int.ofNat (natOfDigits nl)) (natOfDigits dl)))) := by
  have hnd : ∀ c ∈ '-' :: nl, (fun c => decide (c ≠ 'd')) c = true := by
    intro c hc
    rcases List.mem_cons.mp hc with rfl | hc2
    · simp
    · simpa using digit_ne_d (hn c hc2)
  have ht2 : List.takeWhile (fun c => decide (c ≠ 'd')) ('d' :: dl) = [] :=
    List.takeWhile_cons_of_neg (by simp)
  have hdw2 : List.dropWhile (fun c => decide (c ≠ 'd')) ('d' :: dl) = 'd' :: dl :=
    List.dropWhile_cons_of_neg (by simp)
  have hnp : (('-' :: nl) ++ 'd' :: dl).takeWhile (fun c => decide (c ≠ 'd')) = '-' :: nl := by
    rw [takeWhile_append_all hnd, ht2, List.append_nil]
  have hdp : (('-' :: nl) ++ 'd' :: dl).dropWhile (fun c => decide (c ≠ 'd')) = 'd' :: dl := by
    rw [dropWhile_append_all hnd, hdw2]
  have hhead : (('-' : Char) :: nl).head? = some '-' := rfl
  simp only [parseFracForm, hnp, hdp, List.drop_succ_cons, List.drop_zero, if_pos hhead]
  rw [if_pos ⟨by simpa using hnne, hdne, List.all_eq_true.mpr hn, List.all_eq_true.mpr hd, hden0⟩]

theorem parse_fracForm (q : ℚ)
    (hb1 : qneg ovThreshold < q) (hb2 : q < ovThreshold) :
    parseF64 (String.mk ('f' :: (intDigits q.num ++ 'd' :: natDigits q.den)))
      = some (.finite q) := by
  rw [parseF64_of_f]
  · rw [toList_mk, List.drop_succ_cons, List.drop_zero]
    have hdden : ∀ c ∈ natDigits q.den, isDigitChar c = true := natDigits_all_digit _
    have hdnum : ∀ c ∈ natDigits q.num.natAbs, isDigitChar c = true := natDigits_all_digit _
    have hden0 : natOfDigits (natDigits q.den) ≠ 0 := by
      rw [natOfDigits_natDigits]
      exact q.den_nz
    by_cases hneg : q.num < 0
    · rw [show intDigits q.num = '-' :: natDigits q.num.natAbs from by
        rw [intDigits, if_pos hneg]]
      rw [show ('-' :: natDigits q.num.natAbs) ++ 'd' :: natDigits q.den
          = ('-' :: natDigits q.num.natAbs) ++ 'd' :: natDigits q.den from rfl]
      rw [parseFracForm_eq_neg _ _ hdnum hdden (natDigits_ne_nil _) (natDigits_ne_nil _) hden0]
      rw [natOfDigits_natDigits, natOfDigits_natDigits]
      have h2 : (Int.ofNat q.num.natAbs) = -q.num := Int.ofNat_natAbs_of_nonpos (le_of_lt hneg)
      rw [h2, ← Rat.neg_mkRat, Rat.mkRat_self, qneg_eq, neg_neg]
      rw [clampF_of_bounds hb1 hb2]
    · rw [show intDigits q.num = natDigits q.num.natAbs from by
        rw [intDigits, if_neg hneg]]
      rw [parseFracForm_eq _ _ hdnum hdden (natDigits_ne_nil _) (natDigits_ne_nil _) hden0]
      rw [natOfDigits_natDigits, natOfDigits_natDigits]
      have h2 : (Int.ofNat q.num.natAbs) = q.num := Int.natAbs_of_nonneg (le_of_not_lt hneg)
      rw [h2, Rat.mkRat_self]
      rw [clampF_of_bounds hb1 hb2]
  · exact mk_ne_head (by simp)
  · exact mk_ne_head (by simp)
  · exact mk_ne_head (by simp)
  · rfl

/-- Round trip: the display text of a well-formed value parses back to it. -/
theorem parse_toDisplay {v : F64} (hwf : wfF v) : parseF64 v.toDisplay = some v := by
  cases v with
  | inf => decide
  | neginf => decide
  | nan => decide
  | finite q =>
      obtain ⟨hb1, hb2⟩ := hwf
      by_cases hden : q.den = 2 ^ factorCount 2 q.den * 5 ^ factorCount 5 q.den
      · have hdisp : (F64.finite q).toDisplay
            = String.mk (if q.num < 0 then '-' :: decCore q else decCore q) := by
          simp only [F64.toDisplay, ratDecimal, if_pos hden]
        rw [hdisp]
        exact parse_decCore_sign q hden hb1 hb2
      · have hdisp : (F64.finite q).toDisplay
            = String.mk ('f' :: (intDigits q.num ++ 'd' :: natDigits q.den)) := by
          simp only [F64.toDisplay, ratDecimal, if_neg hden]
          rfl
        rw [hdisp]
        exact parse_fracForm q hb1 hb2

/-! ### Well-formedness of arithmetic results -/

theorem clampF_wf (x : ℚ) : wfF (clampF x) := by
  rw [clampF]
  split
  · trivial
  case isFalse h1 =>
    split
    · trivial
    case isFalse h2 =>
      exact ⟨lt_of_not_le h2, lt_of_not_le h1⟩

theorem wfF_zero : wfF (.finite 0) :=
  show qneg ovThreshold < 0 ∧ (0:ℚ) < ovThreshold from by constructor <;> decide

theorem wf_add (a b : F64) : wfF (a.add b) := by
  cases a <;> cases b <;> first | exact clampF_wf _ | trivial

theorem wf_sub (a b : F64) : wfF (a.sub b) := wf_add a b.neg

theorem wf_mul (a b : F64) : wfF (a.mul b) := by
  cases a <;> cases b <;>
    first
      | exact clampF_wf _
      | trivial
      | (rw [F64.mul]; split_ifs <;> trivial)

theorem wf_div (a b : F64) : wfF (a.div b) := by
  cases a <;> cases b <;>
    first
      | exact wfF_zero
      | trivial
      | (rw [F64.div]; split_ifs <;> first | exact clampF_wf _ | trivial)

theorem wf_apply {op : Operation} {a b r : F64} (h : op.apply a b = .ok r) :
    wfF r := by
  cases op with
  | Add =>
      rw [Operation.apply] at h
      injection h with h
      rw [← h]
      exact wf_add a b
  | Subtract =>
      rw [Operation.apply] at h
      injection h with h
      rw [← h]
      exact wf_sub a b
  | Multiply =>
      rw [Operation.apply] at h
      injection h with h
      rw [← h]
      exact wf_mul a b
  | Divide =>
      rw [Operation.apply] at h
      split at h
      · exact absurd h (by simp)
      · injection h with h
        rw [← h]
        exact wf_div a b

theorem apply_error_msg {op : Operation} {a b : F64} {e : String}
    (h : op.apply a b = .error e) : e = "Error: Division by zero" := by
  cases op <;> rw [Operation.apply] at h
  case Divide =>
    split at h
    · injection h with h
      exact h.symm
    · exact absurd h (by simp)
  all_goals exact absurd h (by simp)

/-! ### typedForm helpers -/

theorem toList_append (s t : String) : (s ++ t).toList = s.toList ++ t.toList := rfl

theorem count_dot_zero_of_digits {l : List Char}
    (h : ∀ c ∈ l, isDigitChar c = true) : l.count '.' = 0 :=
  List.count_eq_zero.mpr (fun hm => digit_ne_dot (h _ hm) rfl)

theorem typedForm_count {s : String} (h : typedForm s = true) :
    s.toList.count '.' ≤ 1 := by
  rw [typedForm] at h
  simp only [Bool.and_eq_true, decide_eq_true_eq] at h
  exact h.1.2

theorem typedForm_digitToString (d : Nat) : typedForm (digitToString d) = true := by
  rw [typedForm, digitToString, toList_mk]
  simp only [Bool.and_eq_true, List.all_eq_true, List.any_eq_true, Bool.or_eq_true,
    decide_eq_true_eq]
  refine ⟨⟨fun c hc => Or.inl (natDigits_all_digit d c hc), ?_⟩, ?_⟩
  · rw [count_dot_zero_of_digits (natDigits_all_digit d)]
    omega
  · cases hcase : natDigits d with
    | nil => exact absurd hcase (natDigits_ne_nil d)
    | cons a t =>
        exact ⟨a, List.mem_cons_self _ _,
          natDigits_all_digit d a (by rw [hcase]; exact List.mem_cons_self _ _)⟩

theorem typedForm_append_digit {s : String} (d : Nat) (h : typedForm s = true) :
    typedForm (s ++ digitToString d) = true := by
  rw [typedForm] at h ⊢
  simp only [toList_append, digitToString, toList_mk]
  simp only [Bool.and_eq_true, List.all_eq_true, List.any_eq_true, Bool.or_eq_true,
    decide_eq_true_eq] at h ⊢
  obtain ⟨⟨hall, hcnt⟩, c0, hc0, hc0d⟩ := h
  refine ⟨⟨?_, ?_⟩, c0, List.mem_append_left _ hc0, hc0d⟩
  · intro c hc
    rcases List.mem_append.mp hc with hm | hm
    · exact hall c hm
    · exact Or.inl (natDigits_all_digit d c hm)
  · have hz : List.count '.' (natDigits d) = 0 :=
      count_dot_zero_of_digits (natDigits_all_digit d)
    rw [List.count_append, hz]
    omega

theorem typedForm_append_dot {s : String} (h : typedForm s = true)
    (hnd : s.toList.count '.' = 0) :
    typedForm (s ++ ".") = true := by
  rw [typedForm] at h ⊢
  simp only [toList_append, show (".".toList) = ['.'] from rfl]
  simp only [Bool.and_eq_true, List.all_eq_true, List.any_eq_true, Bool.or_eq_true,
    decide_eq_true_eq] at h ⊢
  obtain ⟨⟨hall, _⟩, c0, hc0, hc0d⟩ := h
  refine ⟨⟨?_, ?_⟩, c0, List.mem_append_left _ hc0, hc0d⟩
  · intro c hc
    rcases List.mem_append.mp hc with hm | hm
    · exact hall c hm
    · have hm2 : c = '.' := List.mem_singleton.mp hm
      subst hm2
      exact Or.inr (by decide)
  · have h1 : List.count '.' ['.'] = 1 := by decide
    rw [List.count_append, hnd, h1]

/-! ### Dots in printed values -/

theorem count_take_drop_dot (P : List Char) (X : Nat)
    (h : ∀ c ∈ P, isDigitChar c = true) :
    List.count '.' (List.take X P ++ '.' :: List.drop X P) ≤ 1 := by
  rw [List.count_append, List.count_cons_self]
  have hz1 : List.count '.' (List.take X P) = 0 :=
    count_dot_zero_of_digits (fun c hc => h c (List.take_subset _ _ hc))
  have hz2 : List.count '.' (List.drop X P) = 0 :=
    count_dot_zero_of_digits (fun c hc => h c (List.drop_subset _ _ hc))
  omega

theorem dots_toDisplay (v : F64) : (F64.toDisplay v).toList.count '.' ≤ 1 := by
  cases v with
  | inf => decide
  | neginf => decide
  | nan => decide
  | finite q =>
      by_cases hden : q.den = 2 ^ factorCount 2 q.den * 5 ^ factorCount 5 q.den
      · have hdisp : (F64.finite q).toDisplay
            = String.mk (if q.num < 0 then '-' :: decCore q else decCore q) := by
          simp only [F64.toDisplay, ratDecimal, if_pos hden]
        have hcore : (decCore q).count '.' ≤ 1 := by
          simp only [decCore]
          split
          · rw [count_dot_zero_of_digits (padZeros_all_digit _ (natDigits_all_digit _))]
            omega
          · exact count_take_drop_dot _ _ (padZeros_all_digit _ (natDigits_all_digit _))
        rw [hdisp, toList_mk]
        split
        · have hstep : List.count '.' ('-' :: decCore q) = List.count '.' (decCore q) := by
            rw [List.count_cons]
            simp
          rw [hstep]
          exact hcore
        · exact hcore
      · have hdisp : (F64.finite q).toDisplay
            = String.mk ('f' :: (intDigits q.num ++ 'd' :: natDigits q.den)) := by
          simp only [F64.toDisplay, ratDecimal, if_neg hden]
          rfl
        rw [hdisp, toList_mk]
        have hz : ('f' :: (intDigits q.num ++ 'd' :: natDigits q.den)).count '.' = 0 := by
          apply List.count_eq_zero.mpr
          intro hm
          rcases List.mem_cons.mp hm with hm | hm
          · exact absurd hm (by decide)
          rcases List.mem_append.mp hm with hm | hm
          · rw [intDigits] at hm
            split at hm
            · rcases List.mem_cons.mp hm with hm | hm
              · exact absurd hm (by decide)
              · exact digit_ne_dot (natDigits_all_digit _ _ hm) rfl
            · exact digit_ne_dot (natDigits_all_digit _ _ hm) rfl
          rcases List.mem_cons.mp hm with hm | hm
          · exact absurd hm (by decide)
          · exact digit_ne_dot (natDigits_all_digit _ _ hm) rfl
        omega

/-! ### The invariant holds in every reachable state -/

theorem inv_new : Inv CalculatorState.new := by
  refine ⟨fun _ => ⟨.finite 0, by decide⟩, fun _ _ _ => by decide, ?_, by decide⟩
  intro e hee
  exact Option.noConfusion hee

theorem inv_input_digit (s : CalculatorState) (h : Inv s) (d : Nat) :
    Inv (input_digit d s) := by
  obtain ⟨h1, h2, h3, h4⟩ := h
  rw [input_digit]
  split
  · exact ⟨h1, h2, h3, h4⟩
  next herr =>
  have he : s.error = none := by revert herr; cases s.error <;> simp
  split
  · exact ⟨h1, h2, h3, h4⟩
  next hd =>
  split
  next hwf =>
    refine ⟨fun _ => parseF64_typed (typedForm_digitToString d),
      fun _ _ _ => typedForm_digitToString d, ?_,
      typedForm_count (typedForm_digitToString d)⟩
    intro e hee
    have hee2 : s.error = some e := hee
    rw [he] at hee2
    exact Option.noConfusion hee2
  next hwf =>
    have hor : s.waiting_for_operand = false ∧ s.fresh_start = false := by
      revert hwf
      cases s.waiting_for_operand <;> cases s.fresh_start <;> simp
    have htyped := h2 he hor.1 hor.2
    refine ⟨fun _ => parseF64_typed (typedForm_append_digit d htyped),
      fun _ _ _ => typedForm_append_digit d htyped, ?_,
      typedForm_count (typedForm_append_digit d htyped)⟩
    intro e hee
    have hee2 : s.error = some e := hee
    rw [he] at hee2
    exact Option.noConfusion hee2

theorem inv_input_decimal_point (s : CalculatorState) (h : Inv s) :
    Inv (input_decimal_point s) := by
  obtain ⟨h1, h2, h3, h4⟩ := h
  rw [input_decimal_point]
  split
  · exact ⟨h1, h2, h3, h4⟩
  next herr =>
  have he : s.error = none := by revert herr; cases s.error <;> simp
  split
  next hwf =>
    refine ⟨fun _ => ⟨.finite 0, (by decide : parseF64 "0." = some (.finite 0))⟩,
      fun _ _ _ => (by decide : typedForm "0." = true), ?_,
      (by decide : List.count '.' "0.".toList ≤ 1)⟩
    intro e hee
    have hee2 : s.error = some e := hee
    rw [he] at hee2
    exact Option.noConfusion hee2
  next hwf =>
  split
  · exact ⟨h1, h2, h3, h4⟩
  next hnc =>
  have hor : s.waiting_for_operand = false ∧ s.fresh_start = false := by
    revert hwf
    cases s.waiting_for_operand <;> cases s.fresh_start <;> simp
  have htyped := h2 he hor.1 hor.2
  have hnm : ('.' : Char) ∉ s.display.toList := by
    revert hnc
    simp
  have hcnt0 : s.display.toList.count '.' = 0 := List.count_eq_zero.mpr hnm
  refine ⟨fun _ => parseF64_typed (typedForm_append_dot htyped hcnt0),
    fun _ _ _ => typedForm_append_dot htyped hcnt0, ?_,
    typedForm_count (typedForm_append_dot htyped hcnt0)⟩
  intro e hee
  have hee2 : s.error = some e := hee
  rw [he] at hee2
  exact Option.noConfusion hee2

theorem inv_input_operation (s : CalculatorState) (h : Inv s) (o : Operation) :
    Inv (input_operation o s) := by
  obtain ⟨h1, h2, h3, h4⟩ := h
  rw [input_operation]
  split
  · exact ⟨h1, h2, h3, h4⟩
  next herr =>
  have he : s.error = none := by revert herr; cases s.error <;> simp
  split
  · exact ⟨h1, h2, h3, h4⟩
  next hdg =>
  split
  · exact ⟨h1, h2, h3, h4⟩
  next current hp =>
  split
  next a op0 hsv hco =>
    split
    next hwait =>
      split
      next result happly =>
        refine ⟨fun _ => ⟨result, parse_toDisplay (wf_apply happly)⟩, ?_, ?_,
          dots_toDisplay result⟩
        · intro _ hww _
          exact absurd (show (true : Bool) = false from hww) (by simp)
        · intro e hee
          have hee2 : s.error = some e := hee
          rw [he] at hee2
          exact Option.noConfusion hee2
      next err happly =>
        refine ⟨?_, ?_, ?_, h4⟩
        · intro hee
          exact Option.noConfusion (show some err = (none : Option String) from hee)
        · intro hee
          exact absurd (show some err = (none : Option String) from hee) (by simp)
        · intro e hee
          have hee2 : some err = some e := hee
          injection hee2 with hee3
          subst hee3
          exact ⟨a, op0, current, hsv, hco, hp, Or.inl happly⟩
    next hwait =>
      refine ⟨fun _ => h1 he, ?_, ?_, h4⟩
      · intro _ hww _
        exact absurd (show (true : Bool) = false from hww) (by simp)
      · intro e hee
        have hee2 : s.error = some e := hee
        rw [he] at hee2
        exact Option.noConfusion hee2
  next hmiss =>
    refine ⟨fun _ => h1 he, ?_, ?_, h4⟩
    · intro _ hww _
      exact absurd (show (true : Bool) = false from hww) (by simp)
    · intro e hee
      have hee2 : s.error = some e := hee
      rw [he] at hee2
      exact Option.noConfusion hee2

theorem inv_calculate (s : CalculatorState) (h : Inv s) : Inv (calculate s) := by
  obtain ⟨h1, h2, h3, h4⟩ := h
  rw [calculate]
  split
  · exact ⟨h1, h2, h3, h4⟩
  next herr =>
  have he : s.error = none := by revert herr; cases s.error <;> simp
  split
  · exact ⟨h1, h2, h3, h4⟩
  next stored hsv =>
  split
  · exact ⟨h1, h2, h3, h4⟩
  next op0 hco =>
  split
  · exact ⟨h1, h2, h3, h4⟩
  next current hp =>
  split
  next result happly =>
    split
    next hinf =>
      refine ⟨?_, ?_, ?_, h4⟩
      · intro hee
        exact Option.noConfusion (show some "Error: Overflow" = (none : Option String) from hee)
      · intro hee
        exact absurd (show some "Error: Overflow" = (none : Option String) from hee) (by simp)
      · intro e hee
        have hee2 : some "Error: Overflow" = some e := hee
        injection hee2 with hee3
        subst hee3
        exact ⟨stored, op0, current, hsv, hco, hp, Or.inr ⟨result, happly, hinf, rfl⟩⟩
    next hinf =>
      refine ⟨fun _ => ⟨result, parse_toDisplay (wf_apply happly)⟩, ?_, ?_,
        dots_toDisplay result⟩
      · intro _ hww _
        exact absurd (show (true : Bool) = false from hww) (by simp)
      · intro e hee
        have hee2 : s.error = some e := hee
        rw [he] at hee2
        exact Option.noConfusion hee2
  next err happly =>
    refine ⟨?_, ?_, ?_, h4⟩
    · intro hee
      exact Option.noConfusion (show some err = (none : Option String) from hee)
    · intro hee
      exact absurd (show some err = (none : Option String) from hee) (by simp)
    · intro e hee
      have hee2 : some err = some e := hee
      injection hee2 with hee3
      subst hee3
      exact ⟨stored, op0, current, hsv, hco, hp, Or.inl happly⟩

theorem inv_step (s : CalculatorState) (h : Inv s) (ev : Event) : Inv (step s ev) := by
  cases ev with
  | digit d => exact inv_input_digit s h d
  | dot => exact inv_input_decimal_point s h
  | op o => exact inv_input_operation s h o
  | eq => exact inv_calculate s h
  | clearE => exact inv_new

theorem inv_foldl (es : List Event) :
    ∀ s : CalculatorState, Inv s → Inv (List.foldl step s es) := by
  induction es with
  | nil => intro s h; exact h
  | cons ev es ih =>
      intro s h
      exact ih (step s ev) (inv_step s h ev)

theorem inv_reachable {s : CalculatorState} (hr : Reachable s) : Inv s := by
  obtain ⟨es, rfl⟩ := hr
  exact inv_foldl es CalculatorState.new inv_new

/-! ### Display projection helpers -/

theorem get_display_text_of_none {s : CalculatorState} (h : s.error = none) :
    get_display_text s = s.display := by
  rw [get_display_text, h]

theorem get_display_text_of_some {s : CalculatorState} {e : String} (h : s.error = some e) :
    get_display_text s = e := by
  rw [get_display_text, h]

theorem join_acc (l : List String) (x y : String) :
    List.foldl (· ++ ·) (x ++ y) l = x ++ List.foldl (· ++ ·) y l := by
  induction l generalizing y with
  | nil => rfl
  | cons a t ih =>
      simp only [List.foldl_cons, String.append_assoc]
      exact ih (y ++ a)

theorem join_cons (a : String) (l : List String) :
    String.join (a :: l) = a ++ String.join l := by
  rw [String.join, String.join, List.foldl_cons, String.empty_append]
  have := join_acc l a ""
  rw [String.append_empty] at this
  exact this

/-! ### Claim theorems -/

/-- C2: `Operation::apply` returns `Ok` of the model-double sum, difference
and product for Add, Subtract and Multiply (always succeeding), and for
Divide errors with the division-by-zero message exactly when the right
operand compares equal to zero, otherwise returning `Ok` of the quotient.
It is a pure function of its arguments (it is a Lean function), so it has
no side effects. -/
theorem c2_apply_contract (l r : F64) :
    Operation.Add.apply l r = .ok (l.add r) ∧
    Operation.Subtract.apply l r = .ok (l.sub r) ∧
    Operation.Multiply.apply l r = .ok (l.mul r) ∧
    Operation.Divide.apply l r =
      (if r = F64.finite 0 then .error "Error: Division by zero" else .ok (l.div r)) ∧
    ((∃ e, Operation.Divide.apply l r = .error e) ↔ r = F64.finite 0) := by
  refine ⟨rfl, rfl, rfl, rfl, ?_⟩
  constructor
  · rintro ⟨e, hee⟩
    rw [Operation.apply] at hee
    split at hee
    · assumption
    · exact absurd hee (by simp)
  · intro hr
    rw [Operation.apply, if_pos hr]
    exact ⟨_, rfl⟩

/-- C5: `clear()` from any state (hence from every reachable state,
including error states) yields exactly the freshly constructed state:
display text `"0"`, no stored value, no pending operation, not waiting,
no error, fresh start. -/
theorem c5_clear_resets (s : CalculatorState) :
    clear s = CalculatorState.new ∧
    get_display_text (clear s) = "0" ∧
    (clear s).stored_value = none ∧
    (clear s).current_operation = none ∧
    (clear s).waiting_for_operand = false ∧
    (clear s).error = none ∧
    (clear s).fresh_start = true :=
  ⟨rfl, rfl, rfl, rfl, rfl, rfl, rfl⟩

/-- C6: while an error is set, each of the four non-clear entry points
leaves the entire state unchanged, so any sequence of non-clear events
leaves the state unchanged and the display projection keeps returning the
error text. -/
theorem c6_error_state_frozen (s : CalculatorState) (e : String) (he : s.error = some e)
    (es : List Event) (hnc : ∀ ev ∈ es, ev ≠ Event.clearE) :
    (∀ d, input_digit d s = s) ∧
    input_decimal_point s = s ∧
    (∀ op, input_operation op s = s) ∧
    calculate s = s ∧
    List.foldl step s es = s ∧
    get_display_text (List.foldl step s es) = e := by
  have hsome : s.error.isSome = true := by rw [he]; rfl
  have hd : ∀ d, input_digit d s = s := fun d => by rw [input_digit, if_pos hsome]
  have hdp : input_decimal_point s = s := by rw [input_decimal_point, if_pos hsome]
  have hop : ∀ op, input_operation op s = s := fun op => by
    rw [input_operation, if_pos hsome]
  have hc : calculate s = s := by rw [calculate, if_pos hsome]
  have hfold : ∀ l : List Event, (∀ ev ∈ l, ev ≠ Event.clearE) →
      List.foldl step s l = s := by
    intro l
    induction l with
    | nil => intro _; rfl
    | cons ev t ih =>
        intro hnc2
        have hev : step s ev = s := by
          cases ev with
          | digit d => exact hd d
          | dot => exact hdp
          | op o => exact hop o
          | eq => exact hc
          | clearE => exact absurd rfl (hnc2 _ (List.mem_cons_self _ _))
        rw [List.foldl_cons, hev]
        exact ih (fun x hm => hnc2 x (List.mem_cons_of_mem _ hm))
  refine ⟨hd, hdp, hop, hc, hfold es hnc, ?_⟩
  rw [hfold es hnc]
  exact get_display_text_of_some he

/-- C6 witness: after `1 ÷ 0 =` the engine is in the division-by-zero
error state and a sequence of digit, dot, operator and equals events
leaves the state unchanged. -/
theorem c6_witness :
    List.foldl step (run [Event.digit 1, Event.op .Divide, Event.digit 0, Event.eq])
      [Event.digit 5, Event.dot, Event.op .Add, Event.eq]
      = run [Event.digit 1, Event.op .Divide, Event.digit 0, Event.eq] :=
  (c6_error_state_frozen _ "Error: Division by zero" (by decide) _ (by decide)).2.2.2.2.1

/-- C7: from a fresh engine, a non-empty sequence of digit inputs (each
0–9) leaves the display showing exactly the concatenation of the digits'
text forms. -/
theorem c7_digit_concatenation (ds : List Nat) (hne : ds ≠ [])
    (hd : ∀ d ∈ ds, d ≤ 9) :
    get_display_text (run (ds.map Event.digit)) = String.join (ds.map digitToString) := by
  have happ : ∀ (l : List Nat) (st : CalculatorState), st.error = none →
      st.waiting_for_operand = false → st.fresh_start = false → (∀ d ∈ l, d ≤ 9) →
      List.foldl step st (l.map Event.digit) =
        { st with display := st.display ++ String.join (l.map digitToString) } := by
    intro l
    induction l with
    | nil =>
        intro st h1 h2 h3 _
        rw [List.map_nil, List.foldl_nil,
          show String.join (List.map digitToString []) = "" from rfl,
          String.append_empty]
    | cons d t ih =>
        intro st h1 h2 h3 hdl
        rw [List.map_cons, List.foldl_cons]
        have hstep : step st (Event.digit d) =
            { st with display := st.display ++ digitToString d } := by
          rw [step, input_digit, if_neg (by rw [h1]; simp),
            if_neg (by have := hdl d (List.mem_cons_self _ _); omega),
            if_neg (by rw [h2, h3]; simp)]
        rw [hstep,
          ih { st with display := st.display ++ digitToString d } h1 h2 h3
            (fun x hx => hdl x (List.mem_cons_of_mem _ hx))]
        have hjoin : (st.display ++ digitToString d) ++ String.join (t.map digitToString)
            = st.display ++ String.join ((d :: t).map digitToString) := by
          rw [List.map_cons, join_cons, String.append_assoc]
        rw [hjoin]
  obtain ⟨d0, t, rfl⟩ : ∃ d0 t, ds = d0 :: t := by
    cases ds with
    | nil => exact absurd rfl hne
    | cons a t => exact ⟨a, t, rfl⟩
  have hstep0 : step CalculatorState.new (Event.digit d0) =
      { CalculatorState.new with
          display := digitToString d0
          waiting_for_operand := false
          fresh_start := false } := by
    rw [step, input_digit, if_neg (by decide),
      if_neg (by have := hd d0 (List.mem_cons_self _ _); omega),
      if_pos (by decide)]
  rw [run, List.map_cons, List.foldl_cons, hstep0,
    happ t _ rfl rfl rfl (fun x hx => hd x (List.mem_cons_of_mem _ hx)),
    get_display_text_of_none rfl]
  rw [List.map_cons, join_cons]

/-- C7 witness: digits 1 then 2 give display `"12"`. -/
theorem c7_witness :
    get_display_text (run ([1, 2].map Event.digit))
      = String.join ([1, 2].map digitToString) :=
  c7_digit_concatenation [1, 2] (by decide) (by decide)

/-- C8: in every reachable state the display projection contains at most
one dot, no matter how many decimal-point inputs were issued. -/
theorem c8_at_most_one_dot (s : CalculatorState) (hr : Reachable s) :
    (get_display_text s).toList.count '.' ≤ 1 := by
  obtain ⟨h1, h2, h3, h4⟩ := inv_reachable hr
  cases he : s.error with
  | none =>
      rw [get_display_text_of_none he]
      exact h4
  | some e =>
      rw [get_display_text_of_some he]
      obtain ⟨a, op, v, _, _, _, hcase⟩ := h3 e he
      rcases hcase with happly | ⟨r, _, _, rfl⟩
      · rw [apply_error_msg happly]
        decide
      · decide

/-- C8 witness: after `1`, `.`, `5`, `.`, `.` the display holds one dot. -/
theorem c8_witness :
    (get_display_text (run [Event.digit 1, Event.dot, Event.digit 5, Event.dot,
      Event.dot])).toList.count '.' ≤ 1 :=
  c8_at_most_one_dot _ ⟨_, rfl⟩

/-- C9: an operator press on a state that is already awaiting a new
operand with a stored value and a pending operation (the state left by a
previous accepted operator press) only replaces the pending operation:
display, stored value, error and all other fields are untouched, and no
error is ever raised. -/
theorem c9_repeated_operator (s : CalculatorState) (o : Operation) (v : F64)
    (he : s.error = none) (hw : s.waiting_for_operand = true)
    (ha : s.stored_value.isSome = true) (hpd : s.current_operation.isSome = true)
    (hd : parseF64 s.display = some v) :
    input_operation o s = { s with current_operation := some o } := by
  have hne1 : s.display ≠ "" := by
    intro h
    rw [h] at hd
    rw [show parseF64 "" = none from by decide] at hd
    exact Option.noConfusion hd
  have hne2 : s.display ≠ "." := by
    intro h
    rw [h] at hd
    rw [show parseF64 "." = none from by decide] at hd
    exact Option.noConfusion hd
  obtain ⟨a, hsv⟩ := Option.isSome_iff_exists.mp ha
  obtain ⟨op0, hco⟩ := Option.isSome_iff_exists.mp hpd
  rw [input_operation, if_neg (by rw [he]; simp), if_neg (not_or.mpr ⟨hne1, hne2⟩)]
  simp only [hd, hsv, hco]
  rw [if_neg (by rw [hw]; simp)]
  cases s with
  | mk d sv co w err fs =>
      have hw2 : w = true := hw
      rw [hw2]

/-- C9 witness: after `5 +`, pressing `×` only swaps the pending
operation. -/
theorem c9_witness :
    input_operation .Multiply (run [Event.digit 5, Event.op .Add])
      = { run [Event.digit 5, Event.op .Add] with current_operation := some .Multiply } :=
  c9_repeated_operator _ .Multiply (F64.finite 5) (by decide) (by decide) (by decide)
    (by decide) (by decide)

/-- C1: on every reachable state with a stored value, a pending operation
and a parsing display, `equals` (calculate) behaves exactly as the
spec-side description `equalsSpec`: apply the pending operation to the
stored value and the parsed display; on a finite success write the
result's text form to the display, store the result, clear the pending
operation and set awaiting; on an infinite/NaN success set the overflow
error instead; on failure set the failure message and leave every other
field unchanged.  (In reachable error states both sides coincide with the
unchanged state, by the invariant.) -/
theorem c1_equals_refines_spec (s : CalculatorState) (hr : Reachable s)
    (a v : F64) (op : Operation)
    (hst : s.stored_value = some a) (hop : s.current_operation = some op)
    (hd : parseF64 s.display = some v) :
    calculate s = equalsSpec a op v s := by
  obtain ⟨h1, h2, h3, h4⟩ := inv_reachable hr
  cases he : s.error with
  | none =>
      rw [calculate, if_neg (by rw [he]; simp)]
      simp only [hst, hop, hd]
      cases happly : op.apply a v with
      | ok r => simp only [equalsSpec, happly, hst, hop]
      | error e2 => simp only [equalsSpec, happly, hst, hop]
  | some e =>
      have hcalc : calculate s = s := by
        rw [calculate, if_pos (by rw [he]; rfl)]
      rw [hcalc]
      obtain ⟨a2, op2, v2, hst2, hop2, hd2, hcase⟩ := h3 e he
      rw [hst] at hst2
      injection hst2 with ha2
      subst ha2
      rw [hop] at hop2
      injection hop2 with hop3
      subst hop3
      rw [hd] at hd2
      injection hd2 with hv2
      subst hv2
      have hself : ∀ e2 : String, s.error = some e2 → { s with error := some e2 } = s := by
        intro e2 he2
        cases s with
        | mk d sv co w err fs =>
            have he3 : err = some e2 := he2
            rw [he3]
      rcases hcase with happly | ⟨r, happly, hinf, hee⟩
      · simp only [equalsSpec, happly]
        exact (hself e he).symm
      · subst hee
        simp only [equalsSpec, happly, if_pos hinf]
        exact (hself _ he).symm

/-- C1 witness: after `1 + 2`, equals matches the spec description at the
stored value 1, operation Add and parsed display 2. -/
theorem c1_witness :
    calculate (run [Event.digit 1, Event.op .Add, Event.digit 2])
      = equalsSpec (F64.finite 1) Operation.Add (F64.finite 2)
          (run [Event.digit 1, Event.op .Add, Event.digit 2]) :=
  c1_equals_refines_spec _ ⟨_, rfl⟩ (F64.finite 1) (F64.finite 2) Operation.Add
    (by decide) (by decide) (by decide)

/-- C3 counterexample: typing the digit 9 three hundred and nine times
produces an error-free state whose display is neither `"0"` nor `"0."`,
yet the display parses to infinity — its magnitude exceeds the double
range — not to a finite number, refuting the claim as stated. -/
theorem c3_counterexample :
    (run (List.replicate 309 (Event.digit 9))).error = none ∧
    (run (List.replicate 309 (Event.digit 9))).display ≠ "0" ∧
    (run (List.replicate 309 (Event.digit 9))).display ≠ "0." ∧
    parseF64 (run (List.replicate 309 (Event.digit 9))).display = some F64.inf ∧
    ¬ ∃ q : ℚ, parseF64 (run (List.replicate 309 (Event.digit 9))).display
        = some (F64.finite q) := by
  refine ⟨by decide, by decide, by decide, by decide, ?_⟩
  rintro ⟨q, hq⟩
  have hinf : parseF64 (run (List.replicate 309 (Event.digit 9))).display
      = some F64.inf := by decide
  rw [hinf] at hq
  injection hq with hq2
  exact F64.noConfusion hq2

/-- C3 amended: in every reachable state with no error, the display
parses as a floating-point value — finite except when the entered or
computed magnitude lies beyond the double range, where it parses as
infinite (or NaN). -/
theorem c3_display_parses (s : CalculatorState) (hr : Reachable s)
    (he : s.error = none) (h0 : s.display ≠ "0") (h0d : s.display ≠ "0.") :
    ∃ v, parseF64 s.display = some v :=
  (inv_reachable hr).1 he

/-- C3 witness: after typing `7` the display parses. -/
theorem c3_witness : ∃ v, parseF64 (run [Event.digit 7]).display = some v :=
  c3_display_parses (run [Event.digit 7]) ⟨_, rfl⟩ (by decide) (by decide) (by decide)

/-- C4 counterexample: after `1 2 + 3 4 = 5` the state is accepted for an
operator press (no error, display `"5"` parses) and no chain calculation
is performed (the pending operation is absent), and `stored_value` is
present (the equals result 46) — yet the operator press overwrites it
with the parsed display value 5, so it is not left unchanged as the
claim states. -/
theorem c4_counterexample :
    (run [Event.digit 1, Event.digit 2, Event.op .Add, Event.digit 3, Event.digit 4,
        Event.eq, Event.digit 5]).error = none ∧
    (run [Event.digit 1, Event.digit 2, Event.op .Add, Event.digit 3, Event.digit 4,
        Event.eq, Event.digit 5]).display = "5" ∧
    parseF64 (run [Event.digit 1, Event.digit 2, Event.op .Add, Event.digit 3,
        Event.digit 4, Event.eq, Event.digit 5]).display = some (.finite 5) ∧
    (run [Event.digit 1, Event.digit 2, Event.op .Add, Event.digit 3, Event.digit 4,
        Event.eq, Event.digit 5]).stored_value = some (.finite 46) ∧
    (run [Event.digit 1, Event.digit 2, Event.op .Add, Event.digit 3, Event.digit 4,
        Event.eq, Event.digit 5]).current_operation = none ∧
    (input_operation .Add (run [Event.digit 1, Event.digit 2, Event.op .Add,
        Event.digit 3, Event.digit 4, Event.eq, Event.digit 5])).stored_value
      = some (.finite 5) ∧
    some (F64.finite 5) ≠ some (F64.finite 46) :=
  ⟨by decide, by decide, by decide, by decide, by decide, by decide, by decide⟩

/-- C4 amended: when an operator press is accepted and no chain
calculation is performed, `stored_value` is set to the parsed display
value whenever the stored value or the pending operation was absent
(overwriting any previously stored value), and is left unchanged only
when both were present (the chain guard case); `pending_operator` is set
to the new operation and `awaiting_new_operand` to true, with all other
fields unchanged. -/
theorem c4_amended (s : CalculatorState) (o : Operation) (v : F64)
    (he : s.error = none) (hd1 : s.display ≠ "") (hd2 : s.display ≠ ".")
    (hp : parseF64 s.display = some v)
    (hnc : ¬ (s.stored_value.isSome = true ∧ s.current_operation.isSome = true ∧
      s.waiting_for_operand = false)) :
    input_operation o s =
      { s with
          stored_value :=
            match s.stored_value, s.current_operation with
            | some a, some _ => some a
            | _, _ => some v
          current_operation := some o
          waiting_for_operand := true } := by
  rw [input_operation, if_neg (by rw [he]; simp), if_neg (not_or.mpr ⟨hd1, hd2⟩)]
  cases hsv : s.stored_value with
  | none => simp only [hp, hsv]
  | some a =>
      cases hco : s.current_operation with
      | none => simp only [hp, hsv, hco]
      | some op0 =>
          have hw : s.waiting_for_operand = true := by
            rcases Bool.eq_false_or_eq_true s.waiting_for_operand with h | h
            · exact h
            · exact absurd ⟨by rw [hsv]; rfl, by rw [hco]; rfl, h⟩ hnc
          simp only [hp, hsv, hco]
          rw [if_neg (by rw [hw]; simp)]

/-- C4 amended witness: a first operator press on display `"12"` stores
the parsed display value. -/
theorem c4_amended_witness :
    input_operation .Add (run [Event.digit 1, Event.digit 2]) =
      { run [Event.digit 1, Event.digit 2] with
          stored_value :=
            match (run [Event.digit 1, Event.digit 2]).stored_value,
                (run [Event.digit 1, Event.digit 2]).current_operation with
            | some a, some _ => some a
            | _, _ => some (F64.finite 12)
          current_operation := some .Add
          waiting_for_operand := true } :=
  c4_amended _ .Add (F64.finite 12) (by decide) (by decide) (by decide) (by decide)
    (by decide)

/-- C10: the infinite/NaN check exists only in `equals`; an operator
press that chains a multiplication overflowing the double range writes
the infinite result's text form (`"inf"`) to the display and stores it,
with no error set — so an error-free state is reachable whose display
does not denote a finite number. -/
theorem c10_chain_skips_overflow_check :
    ∃ es : List Event,
      (run es).error = none ∧
      (run es).display = F64.inf.toDisplay ∧
      (run es).stored_value = some F64.inf ∧
      parseF64 (run es).display = some F64.inf ∧
      ¬ ∃ q : ℚ, parseF64 (run es).display = some (F64.finite q) := by
  refine ⟨List.replicate 155 (Event.digit 9) ++ [Event.op .Multiply] ++
    List.replicate 155 (Event.digit 9) ++ [Event.op .Multiply],
    by decide, by decide, by decide, by decide, ?_⟩
  rintro ⟨q, hq⟩
  have hinf : parseF64 (run (List.replicate 155 (Event.digit 9) ++ [Event.op .Multiply] ++
      List.replicate 155 (Event.digit 9) ++ [Event.op .Multiply])).display
      = some F64.inf := by decide
  rw [hinf] at hq
  injection hq with hq2
  exact F64.noConfusion hq2

end RustCalc
